import Mathlib

/-!
Verification of the chunking / job-polling / reassembly core of the
Reddit-TikTok-App repository (`text_processor.py`, `subtitle_generator.py`).

Python strings are embedded as `List Char`; the tiktoken token counter is a
parameter `count : List Char → Nat` (the claims quantify over texts, and the
structural behaviour of `chunk_text` depends on the counter only through the
comparisons the source makes).  Remote services (OpenAI chat completions,
the ZapCap job API, moviepy file operations) are embedded as oracle
parameters; the control flow around them is translated from the source.
-/

/-- The whitespace set of Python 3's `str.strip()` / `str.split()`: exactly
the characters for which `str.isspace()` holds — the ASCII whitespace
`\t \n \v \f \r` and space, the separators U+001C–U+001F, NEL (U+0085),
NBSP (U+00A0), OGHAM SPACE MARK (U+1680), the Unicode spaces
U+2000–U+200A, LINE/PARAGRAPH SEPARATOR (U+2028, U+2029), NARROW NBSP
(U+202F), MMSP (U+205F) and IDEOGRAPHIC SPACE (U+3000). -/
def isPySpace (c : Char) : Bool :=
  let n := c.toNat
  (decide (0x09 ≤ n) && decide (n ≤ 0x0D)) || n == 0x20
    || (decide (0x1C ≤ n) && decide (n ≤ 0x1F))
    || n == 0x85 || n == 0xA0 || n == 0x1680
    || (decide (0x2000 ≤ n) && decide (n ≤ 0x200A))
    || n == 0x2028 || n == 0x2029 || n == 0x202F || n == 0x205F
    || n == 0x3000

/-- `true` iff the list starts with a non-whitespace character. -/
def headNonWS : List Char → Bool
  | [] => false
  | c :: _ => !isPySpace c

/-- A string is trim-clean when it is nonempty and has no leading or trailing
whitespace (so Python's `strip()` leaves it unchanged). -/
def trimClean (s : List Char) : Bool :=
  headNonWS s && headNonWS s.reverse

/-- Python `s.strip()`: drop leading and trailing whitespace. -/
def pyStrip (s : List Char) : List Char :=
  ((s.dropWhile isPySpace).reverse.dropWhile isPySpace).reverse

/-- `startsWith pre s` iff `pre` is an initial segment of `s`. -/
def startsWith (pre s : List Char) : Bool :=
  s.take pre.length == pre

/-- Fuel-driven worker for `pySplit`; fuel at least `s.length` makes it total
in the intended sense (each step consumes at least one character). -/
def pySplitF (sep : List Char) : Nat → List Char → List (List Char)
  | 0, s => [s]
  | _ + 1, [] => [[]]
  | fuel + 1, c :: rest =>
    if !sep.isEmpty && startsWith sep (c :: rest) then
      [] :: pySplitF sep fuel (rest.drop (sep.length - 1))
    else
      match pySplitF sep fuel rest with
      | [] => [[c]]
      | seg :: segs => (c :: seg) :: segs

/-- Python `s.split(sep)` for a nonempty separator: greedy left-to-right,
non-overlapping, keeping empty segments. -/
def pySplit (sep s : List Char) : List (List Char) :=
  pySplitF sep s.length s

/-- Python `sep.join(xs)`. -/
def joinSep (sep : List Char) : List (List Char) → List Char
  | [] => []
  | [x] => x
  | x :: y :: xs => x ++ sep ++ joinSep sep (y :: xs)

/-- `(xs.map (sep ++ ·)).flatten`: the tail of a `sep`-join. -/
def prependJoin (sep : List Char) : List (List Char) → List Char
  | [] => []
  | x :: xs => sep ++ x ++ prependJoin sep xs

/-- Interleave chunks with explicit boundary separators: used to state the
round-trip property (the source records no separators, so the property is
about the existence of a separator assignment). -/
def interleave : List (List Char) → List (List Char) → List Char
  | [], _ => []
  | [x], _ => x
  | x :: y :: xs, [] => x ++ interleave (y :: xs) []
  | x :: y :: xs, sep :: seps => x ++ sep ++ interleave (y :: xs) seps

/-- The paragraph separator `"\n\n"` of `text_processor.chunk_text`. -/
def nn : List Char := ['\n', '\n']

/-- The sentence separator `". "` of `text_processor.chunk_text`. -/
def ds : List Char := ['.', ' ']

/-- A token counter, standing for `TextProcessor.count_tokens` (tiktoken). -/
abbrev Counter := List Char → Nat

/-- One iteration of the inner `for sentence in sentences` loop of
`chunk_text` (text_processor.py lines 51-61): state is
(chunks so far, temp_chunk). -/
def sentenceStep (count : Counter) (maxSize : Nat)
    (st : List (List Char) × List Char) (sentence : List Char) :
    List (List Char) × List Char :=
  let test := if st.2 = [] then sentence else st.2 ++ ds ++ sentence
  if maxSize < count test then
    if st.2 = [] then (st.1 ++ [sentence], [])
    else (st.1 ++ [pyStrip st.2], sentence)
  else (st.1, test)

/-- One iteration of the outer `for paragraph in paragraphs` loop of
`chunk_text` (text_processor.py lines 40-64): state is
(chunks so far, current_chunk). -/
def paragraphStep (count : Counter) (maxSize : Nat)
    (st : List (List Char) × List Char) (paragraph : List Char) :
    List (List Char) × List Char :=
  let test := if st.2 = [] then paragraph else st.2 ++ nn ++ paragraph
  if maxSize < count test then
    if st.2 = [] then
      (pySplit ds paragraph).foldl (sentenceStep count maxSize) (st.1, [])
    else (st.1 ++ [pyStrip st.2], paragraph)
  else (st.1, test)

/-- `TextProcessor.chunk_text` (text_processor.py lines 21-69). -/
def chunk_text (count : Counter) (text : List Char) (maxSize : Nat) :
    List (List Char) :=
  if count text ≤ maxSize then [text]
  else
    let st := (pySplit nn text).foldl (paragraphStep count maxSize) ([], [])
    if st.2 = [] then st.1 else st.1 ++ [pyStrip st.2]

/-- Every sentence of every paragraph of `text` is nonempty with no leading
or trailing whitespace (the hypothesis under which the chunking round-trip
holds; `trimClean` already excludes the empty string). -/
def goodText (text : List Char) : Bool :=
  (pySplit nn text).all fun p => (pySplit ds p).all fun s => trimClean s

/-- Python `s.replace(old, new)` = `new.join(s.split(old))`:
greedy left-to-right, non-overlapping. -/
def pyReplace (old new s : List Char) : List Char :=
  joinSep new (pySplit old s)

/-- Worker for `pyWords` with the current (reversed) word as accumulator. -/
def pyWordsAux : List Char → List Char → List (List Char)
  | [], acc => if acc = [] then [] else [acc.reverse]
  | c :: rest, acc =>
    if isPySpace c then
      if acc = [] then pyWordsAux rest []
      else acc.reverse :: pyWordsAux rest []
    else pyWordsAux rest (c :: acc)

/-- Python `s.split()` with no argument: split on whitespace runs,
discarding empty segments. -/
def pyWords (s : List Char) : List (List Char) :=
  pyWordsAux s []

/-- `TextProcessor._basic_text_cleanup` (text_processor.py lines 257-271):
strip Reddit formatting marks, then normalise all whitespace to single
spaces via `' '.join(cleaned.split())`. -/
def _basic_text_cleanup (text : List Char) : List Char :=
  let cleaned := pyReplace ("**".toList) [] text
  let cleaned := pyReplace ("*".toList) [] cleaned
  let cleaned := pyReplace ("#".toList) [] cleaned
  let cleaned := pyReplace ("&gt;".toList) [] cleaned
  let cleaned := pyReplace ("&lt;".toList) [] cleaned
  joinSep [' '] (pyWords cleaned)

/-- Outcome of one OpenAI chat-completion call: the returned (already
stripped) message content, or an exception. -/
inductive ApiResult where
  | ok (text : List Char)
  | err
deriving DecidableEq

/-- The per-chunk output of the loop in `_process_text_in_chunks`
(text_processor.py lines 178-191): chunk 0 goes through
`_process_single_chunk`, later chunks through
`_process_chunk_content_only`, and a failed call falls back to
`_basic_text_cleanup` of the chunk. -/
def chunkOut (single contentOnly : List Char → ApiResult)
    (p : Nat × List Char) : List Char :=
  match (if p.1 = 0 then single p.2 else contentOnly p.2) with
  | ApiResult.ok t => t
  | ApiResult.err => _basic_text_cleanup p.2

/-- The reassembly step `"\n\n".join(processed_chunks)`
(text_processor.py line 194). -/
def reassemble (outputs : List (List Char)) : List Char :=
  joinSep nn outputs

/-- `TextProcessor._process_text_in_chunks` (text_processor.py lines
168-200).  The two OpenAI calls are the oracles `single` and
`contentOnly`; `_extract_title` is also called by the source but its
result is unused, so it does not appear. -/
def _process_text_in_chunks (count : Counter)
    (single contentOnly : List Char → ApiResult) (raw_text : List Char) :
    List Char :=
  let chunks := chunk_text count raw_text 2500
  let processed :=
    chunks.enum.foldl (fun acc p => acc ++ [chunkOut single contentOnly p]) []
  reassemble processed

/-- `TextProcessor.process_text_for_narration` (text_processor.py lines
71-102): empty input returns `""` at once; long input is processed in
chunks; otherwise `_process_single_chunk` runs, falling back to
`_basic_text_cleanup` when the call raises. -/
def process_text_for_narration (count : Counter)
    (single contentOnly : List Char → ApiResult) (raw_text : List Char) :
    List Char :=
  if raw_text = [] then []
  else if 3000 < count raw_text then
    _process_text_in_chunks count single contentOnly raw_text
  else
    match single raw_text with
    | ApiResult.ok t => t
    | ApiResult.err => _basic_text_cleanup raw_text

/-- Result of one ZapCap status request in `_wait_for_processing`: the
parsed `status` / `downloadUrl` fields, or an exception while polling. -/
inductive PollResult where
  | ok (status : String) (downloadUrl : Option String)
  | exc
deriving DecidableEq

/-- Ghost instrumentation: which terminal branch of `_wait_for_processing`
produced the return value. -/
inductive WaitOutcome where
  | gotUrl (url : String)
  | noUrl
  | remoteFailed
  | pollingLost
  | timedOut
deriving DecidableEq

/-- `check_interval = 10` (subtitle_generator.py line 312). -/
def check_interval : Nat := 10

/-- The `while elapsed_time < max_wait_seconds` loop of
`_wait_for_processing` (subtitle_generator.py lines 317-378).  `poll k`
is the k-th status request; sleeping is modelled by adding the slept
seconds to `elapsed`.  The first component is the source's return value
(`downloadUrl` or `None`); the second is ghost instrumentation naming the
terminal branch.  Fuel bounds the recursion; every continuing iteration
adds at least 10 to `elapsed`, so fuel `maxWait + 1` is never exhausted. -/
def waitLoop (poll : Nat → PollResult) (maxWait : Nat) :
    Nat → Nat → Nat → Nat → Option String × WaitOutcome
  | 0, _, _, _ => (none, WaitOutcome.timedOut)
  | fuel + 1, k, elapsed, cf =>
    if elapsed < maxWait then
      match poll k with
      | PollResult.ok status url =>
        if status = "completed" then
          match url with
          | some u => (some u, WaitOutcome.gotUrl u)
          | none => (none, WaitOutcome.noUrl)
        else if status = "failed" then (none, WaitOutcome.remoteFailed)
        else waitLoop poll maxWait fuel (k + 1) (elapsed + check_interval) 0
      | PollResult.exc =>
        if 5 ≤ cf + 1 then (none, WaitOutcome.pollingLost)
        else
          waitLoop poll maxWait fuel (k + 1)
            (elapsed + min 30 (check_interval * (cf + 1))) (cf + 1)
    else (none, WaitOutcome.timedOut)

/-- `SubtitleGenerator._wait_for_processing` (subtitle_generator.py lines
305-378) with `max_wait_seconds = max_wait_minutes * 60`. -/
def _wait_for_processing (poll : Nat → PollResult)
    (max_wait_minutes : Nat) : Option String × WaitOutcome :=
  waitLoop poll (max_wait_minutes * 60) (max_wait_minutes * 60 + 1) 0 0 0

/-- The download URL a `WaitOutcome` carries, if any. -/
def outcomeUrl : WaitOutcome → Option String
  | WaitOutcome.gotUrl u => some u
  | _ => none

/-- Python `int()` on a rational: truncation toward zero. -/
def pyInt (q : ℚ) : ℤ :=
  if q < 0 then ⌈q⌉ else ⌊q⌋

/-- `SubtitleGenerator._calculate_timeout` (subtitle_generator.py lines
216-241), happy path with MoviePy available: the video's duration in
seconds (a float, embedded as ℚ) gives
`max(10, min(60, int(duration_minutes * 4) + 5))` minutes. -/
def _calculate_timeout (duration_seconds : ℚ) : ℤ :=
  let duration_minutes := duration_seconds / 60
  max 10 (min 60 (pyInt (duration_minutes * 4) + 5))

/-- Modelled from the spec: `clamp(x, lo, hi)` of §4.3's timeout formula
(`max lo (min hi x)`), for comparison with `_calculate_timeout`. -/
def specClamp (x lo hi : ℚ) : ℚ :=
  max lo (min hi x)

/-- Python float `a // b` (floor division). -/
def pyFloorDiv (a b : ℚ) : ℚ := ⌊a / b⌋

/-- Python float `a % b`, which for positive `b` is `a - b * ⌊a / b⌋`. -/
def pyMod (a b : ℚ) : ℚ := a - b * ⌊a / b⌋

/-- `num_chunks = int(duration // chunk_duration) + (1 if duration %
chunk_duration > 0 else 0)` (subtitle_generator.py line 129). -/
def num_chunks (duration chunk_duration : ℚ) : ℤ :=
  pyInt (pyFloorDiv duration chunk_duration) +
    (if 0 < pyMod duration chunk_duration then 1 else 0)

/-- The i-th chunk's `(start_time, end_time)` of the media split:
`start_time = i * chunk_duration`,
`end_time = min((i + 1) * chunk_duration, duration)`
(subtitle_generator.py lines 138-139). -/
def chunk_bounds (duration chunk_duration : ℚ) (i : Nat) : ℚ × ℚ :=
  ((i : ℚ) * chunk_duration, min (((i : ℚ) + 1) * chunk_duration) duration)

/-- The list of chunk intervals produced by
`for i in range(num_chunks)` (subtitle_generator.py lines 137-157). -/
def chunk_spans (duration chunk_duration : ℚ) : List (ℚ × ℚ) :=
  (List.range (num_chunks duration chunk_duration).toNat).map
    (chunk_bounds duration chunk_duration)

/-- What `_add_subtitles_chunked` hands on: the ordered list of per-chunk
files that get merged into the final video, and the value returned to the
caller. -/
structure ChunkedOutcome where
  successful_chunks : List String
  returned : Option String
deriving DecidableEq

/-- Steps 2-3 of `SubtitleGenerator._add_subtitles_chunked`
(subtitle_generator.py lines 160-196).  `results i` is the value
`_add_subtitles_single` returns for chunk `i` (the subtitled file's path,
or `None` on failure); on `None` the original chunk file is appended
instead.  The moviepy merge is modelled as succeeding, after which the
source returns `output_file`. -/
def _add_subtitles_chunked (results : Nat → Option String)
    (chunk_files : List String) (output_file : String) : ChunkedOutcome :=
  { successful_chunks :=
      chunk_files.enum.foldl
        (fun acc p =>
          match results p.1 with
          | some r => acc ++ [r]
          | none => acc ++ [p.2]) []
    returned := some output_file }

/-- The chunk-accumulator state `(chunks, current)` seen as the list of
pieces already decided: `current` is one further piece unless empty. -/
def consCur (st : List (List Char) × List Char) : List (List Char) :=
  if st.2 = [] then st.1 else st.1 ++ [st.2]

/-- Round-trip invariant of the `chunk_text` loops: the pieces of the state
interleaved with some separators (each a blank line or `". "`) spell the
text consumed so far, and the open piece is trim-clean. -/
def RInv (st : List (List Char) × List Char) (T : List Char) : Prop :=
  ∃ seps : List (List Char),
    (∀ x ∈ seps, x = nn ∨ x = ds)
    ∧ seps.length + 1 = (consCur st).length
    ∧ interleave (consCur st) seps = T
    ∧ (st.2 ≠ [] → trimClean st.2 = true)

example : pySplit nn ("aa\n\nbb".toList) = ["aa".toList, "bb".toList] := by decide
example : joinSep nn ["aa".toList, "bb".toList] = "aa\n\nbb".toList := by decide
example : chunk_text List.length ("aa".toList) 10 = ["aa".toList] := rfl
example : chunk_text List.length ("aaa \n\nbb".toList) 4
    = ["aaa".toList, "bb".toList] := by decide
example : chunk_text List.length ("aa\n\nbbbbb. ccccc".toList) 10
    = ["aa".toList, "bbbbb. ccccc".toList] := by decide
example : pyStrip ("aa\u00A0".toList) = "aa".toList := by decide
example : chunk_text List.length ("aa\u00A0\n\nbbb\n\nccc".toList) 7
    = ["aa".toList, "bbb".toList, "ccc".toList] := by decide
example : goodText ("aa\u00A0\n\nbbb\n\nccc".toList) = false := by decide
example : _basic_text_cleanup ("**a**  b".toList) = "a b".toList := by decide
example : _calculate_timeout 162 = 15 := by
  norm_num [_calculate_timeout, pyInt]
example : _calculate_timeout 3600 = 60 := by
  norm_num [_calculate_timeout, pyInt]
example : _calculate_timeout 30 = 10 := by
  norm_num [_calculate_timeout, pyInt]
example : num_chunks 400 180 = 3 := by
  norm_num [num_chunks, pyInt, pyFloorDiv, pyMod]
example : (_wait_for_processing (fun _ => PollResult.exc) 15).2
    = WaitOutcome.pollingLost := by decide
example : (_wait_for_processing (fun _ => PollResult.ok "processing" none) 15).2
    = WaitOutcome.timedOut := by decide
example : (_wait_for_processing (fun _ => PollResult.ok "failed" none) 15).1
    = none := by decide

/-! ### Helper lemmas -/

theorem foldl_append_map {α β : Type} (f : α → β) (l : List α) (acc : List β) :
    l.foldl (fun a x => a ++ [f x]) acc = acc ++ l.map f := by
  induction l generalizing acc with
  | nil => simp
  | cons x xs ih => simp [ih]

theorem waitLoop_fst_eq_outcomeUrl (poll : Nat → PollResult) (maxWait : Nat) :
    ∀ fuel k e cf, (waitLoop poll maxWait fuel k e cf).1
      = outcomeUrl (waitLoop poll maxWait fuel k e cf).2 := by
  intro fuel
  induction fuel with
  | zero => intro k e cf; rfl
  | succ n ih =>
    intro k e cf
    simp only [waitLoop]
    by_cases hlt : e < maxWait
    · simp only [if_pos hlt]
      cases hpoll : poll k with
      | ok status url =>
        by_cases hc : status = "completed"
        · simp only [if_pos hc]
          cases url <;> rfl
        · by_cases hf : status = "failed"
          · simp [hc, hf, outcomeUrl]
          · simp only [if_neg hc, if_neg hf]
            exact ih ..
      | exc =>
        by_cases h5 : 5 ≤ cf + 1
        · simp [h5, outcomeUrl]
        · simp only [if_neg h5]
          exact ih ..
    · simp [hlt, outcomeUrl]

/-! ### Claim theorems -/

/-- C8: for every text whose estimated token count is at most the limit,
`chunk_text` returns exactly one chunk whose payload equals the input text
unchanged. -/
theorem c8_single_chunk (count : Counter) (text : List Char) (maxSize : Nat)
    (h : count text ≤ maxSize) : chunk_text count text maxSize = [text] := by
  simp [chunk_text, h]

/-- Witness for C8 on the two-character text "hi" with limit 10 and the
character-count estimator. -/
theorem c8_witness :
    List.length ("hi".toList) ≤ 10 ∧
      chunk_text List.length ("hi".toList) 10 = ["hi".toList] :=
  ⟨by decide, c8_single_chunk List.length ("hi".toList) 10 (by decide)⟩

/-- C10: for every empty input, `process_text_for_narration` returns the
empty string immediately; the result is the same for every choice of the
external-service oracles and every token counter, so no external service
influences (or is needed for) it, and the function is total (never
raises). -/
theorem c10_empty_input :
    ∀ (count : Counter) (single contentOnly : List Char → ApiResult),
      process_text_for_narration count single contentOnly [] = [] := by
  intro count single contentOnly
  rfl

/-- C2: evaluation at a failing input.  On the text
`"aa\n\nbbbbb. ccccc"` with limit 10 and the character-count estimator,
`chunk_text` emits the paragraph `"bbbbb. ccccc"` as one chunk: its size
(12) exceeds the limit and it consists of two sentences, so it is not a
single over-long sentence — contradicting the claim that only a
single-sentence forced chunk may exceed the limit.  (The sentence-splitting
branch of the source is reachable only when `current_chunk` is empty, so an
over-long paragraph that follows accumulated content is flushed whole.) -/
theorem c2_bug_eval :
    chunk_text List.length ("aa\n\nbbbbb. ccccc".toList) 10
      = ["aa".toList, "bbbbb. ccccc".toList]
    ∧ 10 < ("bbbbb. ccccc".toList).length
    ∧ 2 ≤ (pySplit ds ("bbbbb. ccccc".toList)).length := by
  refine ⟨by decide, by decide, by decide⟩

/-- C9: the reassembly of per-chunk text outputs concatenates them in index
order with exactly one blank line between consecutive outputs — outputs
`A`, `B`, `C` at indices 0, 1, 2 yield `A ++ "\n\n" ++ B ++ "\n\n" ++ C` —
and the final artifact of `_process_text_in_chunks` is a function of the
index-ordered list of per-chunk outputs alone. -/
theorem c9_reassembly :
    (∀ A B C : List Char,
        reassemble [A, B, C] = A ++ nn ++ (B ++ nn ++ C))
    ∧ ∀ (count : Counter) (single contentOnly : List Char → ApiResult)
        (raw_text : List Char),
        _process_text_in_chunks count single contentOnly raw_text
          = reassemble
              ((chunk_text count raw_text 2500).enum.map
                (chunkOut single contentOnly)) := by
  constructor
  · intro A B C
    simp [reassemble, joinSep, List.append_assoc]
  · intro count single contentOnly raw_text
    show reassemble
        ((chunk_text count raw_text 2500).enum.foldl
          (fun acc p => acc ++ [chunkOut single contentOnly p]) []) = _
    rw [foldl_append_map]
    rfl

/-- C4 (counterexample): the claim says the three non-success terminal
outcomes of a polling run produce return values from which the caller can
distinguish them.  At concrete inputs realising each outcome — a remote
job that reports `failed`, a status check that always raises (exceeding
the consecutive-failure bound), and a job that stays pending past the
deadline — `_wait_for_processing` returns the same value `None` all three
times, so the return values distinguish nothing. -/
theorem c4_counterexample :
    (_wait_for_processing (fun _ => PollResult.ok "failed" none) 15).2
        = WaitOutcome.remoteFailed
    ∧ (_wait_for_processing (fun _ => PollResult.exc) 15).2
        = WaitOutcome.pollingLost
    ∧ (_wait_for_processing (fun _ => PollResult.ok "processing" none) 15).2
        = WaitOutcome.timedOut
    ∧ (_wait_for_processing (fun _ => PollResult.ok "failed" none) 15).1
        = (_wait_for_processing (fun _ => PollResult.exc) 15).1
    ∧ (_wait_for_processing (fun _ => PollResult.exc) 15).1
        = (_wait_for_processing (fun _ => PollResult.ok "processing" none) 15).1
    ∧ (_wait_for_processing (fun _ => PollResult.ok "failed" none) 15).1
        = none := by
  refine ⟨by decide, by decide, by decide, by decide, by decide, by decide⟩

/-- C4 (amended): every polling run returns `some url` exactly when it
terminates in the success branch with a download URL, and returns `None`
for all other terminal outcomes — remote job failure, timeout, exceeding
the consecutive-polling-failure bound (and completion without a URL) — so
the three non-success outcomes are not distinguishable from one another
through the return value. -/
theorem c4_amended :
    (∀ (poll : Nat → PollResult) (max_wait_minutes : Nat),
        (_wait_for_processing poll max_wait_minutes).1
          = outcomeUrl (_wait_for_processing poll max_wait_minutes).2)
    ∧ outcomeUrl WaitOutcome.remoteFailed = none
    ∧ outcomeUrl WaitOutcome.pollingLost = none
    ∧ outcomeUrl WaitOutcome.timedOut = none := by
  refine ⟨?_, rfl, rfl, rfl⟩
  intro poll m
  exact waitLoop_fst_eq_outcomeUrl poll (m * 60) (m * 60 + 1) 0 0 0

/-- C5: while the deadline has not elapsed, a transient error during a
status check increments the consecutive-failure counter and retries after
`min 30 (check_interval * consecutive_failures)` seconds, with that delay
added to the elapsed time counted against the deadline; reaching 5
consecutive failures terminates polling with the error return `None`; and
a successful status check (still processing) resets the counter to 0. -/
theorem c5_polling_backoff (poll : Nat → PollResult)
    (maxWait fuel k e cf : Nat) (he : e < maxWait) :
    (poll k = PollResult.exc → 5 ≤ cf + 1 →
        waitLoop poll maxWait (fuel + 1) k e cf
          = (none, WaitOutcome.pollingLost))
    ∧ (poll k = PollResult.exc → cf + 1 < 5 →
        waitLoop poll maxWait (fuel + 1) k e cf
          = waitLoop poll maxWait fuel (k + 1)
              (e + min 30 (check_interval * (cf + 1))) (cf + 1))
    ∧ (∀ status url, poll k = PollResult.ok status url →
        status ≠ "completed" → status ≠ "failed" →
        waitLoop poll maxWait (fuel + 1) k e cf
          = waitLoop poll maxWait fuel (k + 1) (e + check_interval) 0) := by
  refine ⟨?_, ?_, ?_⟩
  · intro hp h5
    simp [waitLoop, he, hp, h5]
  · intro hp h5
    simp [waitLoop, he, hp, Nat.not_le.mpr h5]
  · intro status url hp hc hf
    simp [waitLoop, he, hp, hc, hf]

/-- Witness for C5: a run with 900 seconds of budget, no time elapsed, no
failures yet, and a status check that raises. -/
theorem c5_witness :
    (0 : Nat) < 900
    ∧ ((fun _ => PollResult.exc) 0 = PollResult.exc → 5 ≤ 0 + 1 →
        waitLoop (fun _ => PollResult.exc) 900 (3 + 1) 0 0 0
          = (none, WaitOutcome.pollingLost))
    ∧ ((fun _ => PollResult.exc) 0 = PollResult.exc → 0 + 1 < 5 →
        waitLoop (fun _ => PollResult.exc) 900 (3 + 1) 0 0 0
          = waitLoop (fun _ => PollResult.exc) 900 3 (0 + 1)
              (0 + min 30 (check_interval * (0 + 1))) (0 + 1))
    ∧ (∀ status url, (fun _ => PollResult.exc) 0 = PollResult.ok status url →
        status ≠ "completed" → status ≠ "failed" →
        waitLoop (fun _ => PollResult.exc) 900 (3 + 1) 0 0 0
          = waitLoop (fun _ => PollResult.exc) 900 3 (0 + 1)
              (0 + check_interval) 0) :=
  ⟨by decide,
    (c5_polling_backoff (fun _ => PollResult.exc) 900 3 0 0 0 (by decide)).1,
    (c5_polling_backoff (fun _ => PollResult.exc) 900 3 0 0 0 (by decide)).2.1,
    (c5_polling_backoff (fun _ => PollResult.exc) 900 3 0 0 0 (by decide)).2.2⟩

/-- C3 (counterexample): at a concrete two-chunk run in which chunk 1's
subtitle job fails, the value `_add_subtitles_chunked` returns to the
caller equals the value returned by the fully successful run — even though
the merged inputs differ (chunk 1 fell back to its original file) — so the
result does not distinguish the partial-failure outcome from full success
and does not identify the fallen-back chunks. -/
theorem c3_counterexample :
    (_add_subtitles_chunked (fun i => if i = 0 then some "s0" else none)
        ["c0", "c1"] "out").returned
      = (_add_subtitles_chunked (fun i => if i = 0 then some "s0" else some "s1")
          ["c0", "c1"] "out").returned
    ∧ (_add_subtitles_chunked (fun i => if i = 0 then some "s0" else none)
        ["c0", "c1"] "out").successful_chunks
      ≠ (_add_subtitles_chunked (fun i => if i = 0 then some "s0" else some "s1")
          ["c0", "c1"] "out").successful_chunks := by
  refine ⟨by decide, by decide⟩

/-- C3 (amended): when the remote subtitle job for some chunk fails, the
orchestrator substitutes that chunk's original payload in the merge list
(every position holds the job's output when it succeeded, the original
chunk file otherwise), the run still completes and returns the final
artifact's path — but that returned value is `some output_file` for every
failure pattern, identical to full success, so the caller is not told that
(or which) chunks fell back. -/
theorem c3_amended (results : Nat → Option String)
    (chunk_files : List String) (output_file : String)
    (hfail : ∃ i, i < chunk_files.length ∧ results i = none) :
    (_add_subtitles_chunked results chunk_files output_file).successful_chunks
      = chunk_files.enum.map (fun p => (results p.1).getD p.2)
    ∧ (_add_subtitles_chunked results chunk_files output_file).returned
        = some output_file
    ∧ ∀ other : Nat → Option String,
        (_add_subtitles_chunked other chunk_files output_file).returned
          = (_add_subtitles_chunked results chunk_files output_file).returned := by
  refine ⟨?_, rfl, fun other => rfl⟩
  show chunk_files.enum.foldl
      (fun acc p =>
        match results p.1 with
        | some r => acc ++ [r]
        | none => acc ++ [p.2]) []
    = chunk_files.enum.map fun p => (results p.1).getD p.2
  have hfun : (fun (acc : List String) (p : Nat × String) =>
      match results p.1 with
      | some r => acc ++ [r]
      | none => acc ++ [p.2])
      = fun acc p => acc ++ [(results p.1).getD p.2] := by
    funext acc p
    cases results p.1 <;> rfl
  rw [hfun, foldl_append_map]
  rfl

/-- Witness for C3 (amended): the two-chunk run in which chunk 1 fails. -/
theorem c3_witness :
    (∃ i, i < (["c0", "c1"] : List String).length ∧
        (fun i => if i = 0 then some "s0" else none) i = (none : Option String))
    ∧ ((_add_subtitles_chunked (fun i => if i = 0 then some "s0" else none)
          ["c0", "c1"] "out").successful_chunks
        = (["c0", "c1"] : List String).enum.map
            (fun p => ((fun i => if i = 0 then some "s0" else none) p.1).getD p.2)
      ∧ (_add_subtitles_chunked (fun i => if i = 0 then some "s0" else none)
            ["c0", "c1"] "out").returned = some "out"
      ∧ ∀ other : Nat → Option String,
          (_add_subtitles_chunked other ["c0", "c1"] "out").returned
            = (_add_subtitles_chunked (fun i => if i = 0 then some "s0" else none)
                ["c0", "c1"] "out").returned) :=
  ⟨⟨1, by decide, rfl⟩,
    c3_amended (fun i => if i = 0 then some "s0" else none) ["c0", "c1"] "out"
      ⟨1, by decide, rfl⟩⟩

/-- C6 (counterexample): for a 162-second video (duration d = 2.7 minutes)
the code computes `max(10, min(60, int(2.7 * 4) + 5)) = 15` minutes, while
the claim's formula `clamp(d*4 + 5, 10, 60)` gives 15.8 — the claim's
equality fails because the source truncates `d * 4` to an integer before
adding the base. -/
theorem c6_counterexample :
    _calculate_timeout 162 = 15
    ∧ specClamp ((162 / 60) * 4 + 5) 10 60 ≠ ((15 : ℤ) : ℚ)
    ∧ ((_calculate_timeout 162 : ℤ) : ℚ) ≠ specClamp ((162 / 60) * 4 + 5) 10 60 := by
  have h1 : _calculate_timeout 162 = 15 := by
    norm_num [_calculate_timeout, pyInt]
  have h2 : specClamp ((162 / 60 : ℚ)) 10 60 = specClamp (162 / 60) 10 60 := rfl
  refine ⟨h1, ?_, ?_⟩
  · norm_num [specClamp, min_def, max_def]
  · rw [h1]
    norm_num [specClamp, min_def, max_def]

/-- C6 (amended): for every nonnegative duration (in seconds, hence
`d = duration_seconds / 60` minutes), the computed job timeout in minutes
equals `clamp(int(d * K) + base, min_timeout, max_timeout)` with `K = 4`,
`base = 5`, `min_timeout = 10`, `max_timeout = 60`, where `int` truncates
the product to an integer before the base is added; being a pure function
of the duration it is deterministic given the configuration. -/
theorem c6_amended (duration_seconds : ℚ) (hs : 0 ≤ duration_seconds) :
    ((_calculate_timeout duration_seconds : ℤ) : ℚ)
      = specClamp (((⌊duration_seconds / 60 * 4⌋ : ℤ) : ℚ) + 5) 10 60 := by
  have h0 : (0 : ℚ) ≤ duration_seconds / 60 * 4 := by positivity
  show ((max 10 (min 60 (pyInt (duration_seconds / 60 * 4) + 5)) : ℤ) : ℚ) = _
  unfold pyInt specClamp
  rw [if_neg (not_lt.mpr h0)]
  push_cast
  rfl

/-- Witness for C6 (amended) at the 162-second duration. -/
theorem c6_witness :
    (0 : ℚ) ≤ 162
    ∧ ((_calculate_timeout 162 : ℤ) : ℚ)
        = specClamp (((⌊(162 : ℚ) / 60 * 4⌋ : ℤ) : ℚ) + 5) 10 60 :=
  ⟨by norm_num, c6_amended 162 (by norm_num)⟩

/-- `pyInt` is the identity on (casts of) integers. -/
theorem pyInt_intCast (z : ℤ) : pyInt (z : ℚ) = z := by
  unfold pyInt
  split <;> simp

/-- The chunk count of the media split equals `⌈d / c⌉` for positive
duration and chunk length. -/
theorem num_chunks_eq_ceil (d c : ℚ) (hd : 0 < d) (hc : 0 < c) :
    num_chunks d c = ⌈d / c⌉ := by
  have hc0 : c ≠ 0 := ne_of_gt hc
  have hmod : pyMod d c = c * Int.fract (d / c) := by
    show d - c * ⌊d / c⌋ = c * Int.fract (d / c)
    have hdc : c * (d / c) = d := by field_simp
    rw [Int.fract, mul_sub, hdc]
  have hdiv : pyInt (pyFloorDiv d c) = ⌊d / c⌋ := by
    unfold pyFloorDiv
    exact pyInt_intCast _
  unfold num_chunks
  rw [hdiv, hmod]
  by_cases hf : Int.fract (d / c) = 0
  · have hxz : (d / c) = ((⌊d / c⌋ : ℤ) : ℚ) := by
      have := Int.fract_add_floor (d / c)
      rw [hf] at this
      linarith
    rw [if_neg (by rw [hf]; simp)]
    have hcf : ⌈d / c⌉ = ⌊d / c⌋ := by
      conv_lhs => rw [hxz]
      exact Int.ceil_intCast _
    omega
  · have hfpos : 0 < Int.fract (d / c) :=
      lt_of_le_of_ne (Int.fract_nonneg _) (Ne.symm hf)
    rw [if_pos (mul_pos hc hfpos)]
    have h1 : (⌊d / c⌋ : ℚ) < d / c := by
      have h0 : 0 < d / c - ⌊d / c⌋ := by
        rw [Int.self_sub_floor]
        exact hfpos
      linarith
    have h2 : ⌊d / c⌋ < ⌈d / c⌉ := by
      have h3 : (⌊d / c⌋ : ℚ) < (⌈d / c⌉ : ℚ) :=
        lt_of_lt_of_le h1 (Int.le_ceil _)
      exact_mod_cast h3
    have h4 := Int.ceil_le_floor_add_one (d / c)
    omega

/-- C7: for positive duration `d` and chunk length `c`, the media split of
`_add_subtitles_chunked` produces `⌈d / c⌉` chunks, chunk `i` spanning
`[i*c, min((i+1)*c, d)]`; consecutive chunks are contiguous (no gap, no
overlap), every non-final chunk has length exactly `c`, every chunk has
positive length at most `c` (so only the final chunk may be shorter,
never longer), and the chunk lengths sum to `d`. -/
theorem c7_media_split (d c : ℚ) (hd : 0 < d) (hc : 0 < c) :
    num_chunks d c = ⌈d / c⌉
    ∧ ((chunk_spans d c).length : ℤ) = ⌈d / c⌉
    ∧ (∀ i : Nat, (i : ℤ) + 1 < num_chunks d c →
        (chunk_bounds d c i).2 = (chunk_bounds d c (i + 1)).1
        ∧ (chunk_bounds d c i).2 - (chunk_bounds d c i).1 = c)
    ∧ (∀ i : Nat, (i : ℤ) < num_chunks d c →
        0 < (chunk_bounds d c i).2 - (chunk_bounds d c i).1
        ∧ (chunk_bounds d c i).2 - (chunk_bounds d c i).1 ≤ c)
    ∧ (∑ i ∈ Finset.range (num_chunks d c).toNat,
        ((chunk_bounds d c i).2 - (chunk_bounds d c i).1)) = d := by
  have hnum := num_chunks_eq_ceil d c hd hc
  have hceil_pos : 0 < ⌈d / c⌉ := Int.ceil_pos.mpr (div_pos hd hc)
  have hlt_of : ∀ i : Nat, (i : ℤ) + 1 < ⌈d / c⌉ → ((i : ℚ) + 1) * c < d := by
    intro i h
    have h1 : (((i : ℤ) + 1 : ℤ) : ℚ) < d / c := Int.lt_ceil.mp h
    have h2 : ((i : ℚ) + 1) < d / c := by push_cast at h1; exact h1
    exact (lt_div_iff hc).mp h2
  have hlt_of1 : ∀ i : Nat, (i : ℤ) < ⌈d / c⌉ → (i : ℚ) * c < d := by
    intro i h
    have h1 : (((i : ℤ) : ℤ) : ℚ) < d / c := Int.lt_ceil.mp h
    have h2 : ((i : ℚ)) < d / c := by push_cast at h1; exact h1
    exact (lt_div_iff hc).mp h2
  refine ⟨hnum, ?_, ?_, ?_, ?_⟩
  · simp only [chunk_spans, List.length_map, List.length_range]
    rw [hnum, Int.toNat_of_nonneg (le_of_lt hceil_pos)]
  · intro i hi
    rw [hnum] at hi
    have hmin : min (((i : ℚ) + 1) * c) d = ((i : ℚ) + 1) * c :=
      min_eq_left (le_of_lt (hlt_of i hi))
    constructor
    · simp only [chunk_bounds, hmin]
      push_cast
      ring
    · simp only [chunk_bounds, hmin]
      ring
  · intro i hi
    rw [hnum] at hi
    have hic : (i : ℚ) * c < d := hlt_of1 i hi
    have hic2 : (i : ℚ) * c < ((i : ℚ) + 1) * c := by nlinarith
    constructor
    · simp only [chunk_bounds]
      have : (i : ℚ) * c < min (((i : ℚ) + 1) * c) d := lt_min hic2 hic
      linarith
    · simp only [chunk_bounds]
      have : min (((i : ℚ) + 1) * c) d ≤ ((i : ℚ) + 1) * c := min_le_left _ _
      linarith
  · rw [hnum]
    have hm1 : 1 ≤ (⌈d / c⌉).toNat := by omega
    obtain ⟨k, hk⟩ : ∃ k, (⌈d / c⌉).toNat = k + 1 := ⟨(⌈d / c⌉).toNat - 1, by omega⟩
    have hkcast : ((k : ℤ) + 1) = ⌈d / c⌉ := by
      have := Int.toNat_of_nonneg (le_of_lt hceil_pos)
      omega
    rw [hk, Finset.sum_range_succ]
    have hterm : ∀ i ∈ Finset.range k,
        (chunk_bounds d c i).2 - (chunk_bounds d c i).1 = c := by
      intro i hi
      have hik : i < k := Finset.mem_range.mp hi
      have hi1 : (i : ℤ) + 1 < ⌈d / c⌉ := by omega
      have hmin : min (((i : ℚ) + 1) * c) d = ((i : ℚ) + 1) * c :=
        min_eq_left (le_of_lt (hlt_of i hi1))
      simp only [chunk_bounds, hmin]
      ring
    rw [Finset.sum_congr rfl hterm, Finset.sum_const, Finset.card_range,
      nsmul_eq_mul]
    have hlast : min (((k : ℚ) + 1) * c) d = d := by
      refine min_eq_right ?_
      have h1 : d / c ≤ (⌈d / c⌉ : ℚ) := Int.le_ceil _
      have h2 : d / c ≤ ((k : ℚ) + 1) := by
        rw [show ((k : ℚ) + 1) = (((k : ℤ) + 1 : ℤ) : ℚ) by push_cast; ring,
          hkcast]
        exact h1
      calc d = d / c * c := by field_simp
        _ ≤ ((k : ℚ) + 1) * c := by nlinarith
    simp only [chunk_bounds, hlast]
    ring

/-! ### String-splitting helper lemmas -/

theorem pySplitF_ne_nil (sep : List Char) :
    ∀ fuel s, pySplitF sep fuel s ≠ [] := by
  intro fuel
  induction fuel with
  | zero => intro s; simp [pySplitF]
  | succ n ih =>
    intro s
    cases s with
    | nil => simp [pySplitF]
    | cons c rest =>
      simp only [pySplitF]
      split
      · simp
      · split
        · simp
        · simp

theorem joinSep_cons_of_ne_nil (sep x : List Char) (xs : List (List Char))
    (h : xs ≠ []) : joinSep sep (x :: xs) = x ++ sep ++ joinSep sep xs := by
  cases xs with
  | nil => exact absurd rfl h
  | cons y ys => rfl

theorem joinSep_pySplitF (sep : List Char) :
    ∀ fuel s, s.length ≤ fuel → joinSep sep (pySplitF sep fuel s) = s := by
  intro fuel
  induction fuel with
  | zero =>
    intro s hs
    have : s = [] := List.length_eq_zero.mp (Nat.le_zero.mp hs)
    subst this
    rfl
  | succ n ih =>
    intro s hs
    cases s with
    | nil => rfl
    | cons c rest =>
      simp only [pySplitF]
      by_cases hpre : (!sep.isEmpty && startsWith sep (c :: rest)) = true
      · rw [if_pos hpre]
        simp only [startsWith, Bool.and_eq_true, Bool.not_eq_true',
          beq_iff_eq] at hpre
        obtain ⟨hsepE, htake⟩ := hpre
        have hsep : sep ≠ [] := by
          intro hnil
          rw [hnil] at hsepE
          simp at hsepE
        obtain ⟨m, hm⟩ : ∃ m, sep.length = m + 1 := by
          cases hsepl : sep.length with
          | zero => exact absurd (List.length_eq_zero.mp hsepl) hsep
          | succ m => exact ⟨m, rfl⟩
        have hdrop : (c :: rest).drop sep.length = rest.drop (sep.length - 1) := by
          rw [hm]
          simp
        have hsplit : sep ++ rest.drop (sep.length - 1) = c :: rest := by
          have h1 := List.take_append_drop sep.length (c :: rest)
          rw [htake] at h1
          rw [← hdrop]
          exact h1
        have hlen : (rest.drop (sep.length - 1)).length ≤ n := by
          have h1 : (rest.drop (sep.length - 1)).length
              = rest.length - (sep.length - 1) := List.length_drop _ _
          have h2 : rest.length ≤ n := by simpa using hs
          omega
        rw [joinSep_cons_of_ne_nil sep [] _ (pySplitF_ne_nil sep n _)]
        rw [ih _ hlen]
        simpa using hsplit
      · rw [if_neg hpre]
        have hlen : rest.length ≤ n := by simpa using hs
        have hrec := ih rest hlen
        cases hsp : pySplitF sep n rest with
        | nil => exact absurd hsp (pySplitF_ne_nil sep n rest)
        | cons seg segs =>
          rw [hsp] at hrec
          cases segs with
          | nil =>
            simp only [joinSep] at hrec ⊢
            rw [hrec]
          | cons t ts =>
            simp only [joinSep] at hrec ⊢
            rw [List.cons_append, List.cons_append, hrec]

theorem joinSep_pySplit (sep s : List Char) :
    joinSep sep (pySplit sep s) = s :=
  joinSep_pySplitF sep s.length s le_rfl

theorem pySplit_ne_nil (sep s : List Char) : pySplit sep s ≠ [] :=
  pySplitF_ne_nil sep s.length s

theorem joinSep_eq_head_prependJoin (sep x : List Char)
    (xs : List (List Char)) :
    joinSep sep (x :: xs) = x ++ prependJoin sep xs := by
  induction xs generalizing x with
  | nil => simp [joinSep, prependJoin]
  | cons y ys ih =>
    rw [joinSep_cons_of_ne_nil sep x (y :: ys) (by simp)]
    rw [ih y]
    simp [prependJoin, List.append_assoc]

/-! ### Trim-cleanliness helper lemmas -/

theorem trimClean_ne_nil (s : List Char) (h : trimClean s = true) : s ≠ [] := by
  intro hnil
  rw [hnil] at h
  simp [trimClean, headNonWS] at h

theorem headNonWS_append (a b : List Char) (ha : headNonWS a = true) :
    headNonWS (a ++ b) = true := by
  cases a with
  | nil => simp [headNonWS] at ha
  | cons c t => simpa [headNonWS] using ha

theorem trimClean_append (a sep b : List Char) (ha : trimClean a = true)
    (hb : trimClean b = true) : trimClean (a ++ sep ++ b) = true := by
  rw [trimClean, Bool.and_eq_true] at ha hb ⊢
  constructor
  · rw [List.append_assoc]
    exact headNonWS_append a (sep ++ b) ha.1
  · rw [List.reverse_append, List.reverse_append]
    exact headNonWS_append b.reverse _ hb.2

theorem dropWhile_of_headNonWS (s : List Char) (h : headNonWS s = true) :
    s.dropWhile isPySpace = s := by
  cases s with
  | nil => rfl
  | cons c t =>
    have hc : isPySpace c = false := by simpa [headNonWS] using h
    simp [List.dropWhile_cons, hc]

theorem pyStrip_eq_self (s : List Char) (h : trimClean s = true) :
    pyStrip s = s := by
  rw [trimClean, Bool.and_eq_true] at h
  unfold pyStrip
  rw [dropWhile_of_headNonWS s h.1, dropWhile_of_headNonWS s.reverse h.2,
    List.reverse_reverse]

theorem trimClean_joinSep (sep : List Char) (ss : List (List Char))
    (hne : ss ≠ []) (h : ∀ s ∈ ss, trimClean s = true) :
    trimClean (joinSep sep ss) = true := by
  induction ss with
  | nil => exact absurd rfl hne
  | cons x xs ih =>
    cases xs with
    | nil => simpa [joinSep] using h x (by simp)
    | cons y ys =>
      rw [joinSep_cons_of_ne_nil sep x (y :: ys) (by simp)]
      exact trimClean_append x sep (joinSep sep (y :: ys)) (h x (by simp))
        (ih (by simp) (fun s hs => h s (List.mem_cons_of_mem x hs)))

/-! ### Interleaving helper lemmas -/

theorem interleave_cons_cons (x : List Char) (L : List (List Char))
    (hL : L ≠ []) (σ : List Char) (ss : List (List Char)) :
    interleave (x :: L) (σ :: ss) = x ++ σ ++ interleave L ss := by
  cases L with
  | nil => exact absurd rfl hL
  | cons y ys => rfl

theorem interleave_cons_nil (x : List Char) (L : List (List Char))
    (hL : L ≠ []) : interleave (x :: L) [] = x ++ interleave L [] := by
  cases L with
  | nil => exact absurd rfl hL
  | cons y ys => rfl

theorem interleave_extend (pieces : List (List Char))
    (seps : List (List Char)) (cur suf : List Char)
    (h : seps.length = pieces.length) :
    interleave (pieces ++ [cur ++ suf]) seps
      = interleave (pieces ++ [cur]) seps ++ suf := by
  induction pieces generalizing seps with
  | nil =>
    have : seps = [] := List.length_eq_zero.mp h
    subst this
    rfl
  | cons x ps ih =>
    cases seps with
    | nil => simp at h
    | cons σ ss =>
      have hlen : ss.length = ps.length := by simpa using h
      rw [List.cons_append, List.cons_append,
        interleave_cons_cons x (ps ++ [cur ++ suf]) (by simp) σ ss,
        interleave_cons_cons x (ps ++ [cur]) (by simp) σ ss,
        ih ss hlen]
      simp [List.append_assoc]

theorem interleave_push (pieces : List (List Char))
    (seps : List (List Char)) (x σ : List Char)
    (h : seps.length + 1 = pieces.length) :
    interleave (pieces ++ [x]) (seps ++ [σ])
      = interleave pieces seps ++ σ ++ x := by
  induction pieces generalizing seps with
  | nil => simp at h
  | cons p ps ih =>
    cases ps with
    | nil =>
      have hseps : seps = [] := by simpa using h
      subst hseps
      rfl
    | cons q qs =>
      cases seps with
      | nil => simp at h
      | cons σ0 ss =>
        have hlen : ss.length + 1 = (q :: qs).length := by simpa using h
        have hih := ih ss hlen
        simp only [List.cons_append, interleave, List.append_eq] at hih ⊢
        rw [hih]
        simp [List.append_assoc]

/-! ### Round-trip invariant lemmas for `chunk_text` -/

theorem trimClean_of_sentences (p : List Char)
    (hp : ∀ s ∈ pySplit ds p, trimClean s = true) : trimClean p = true := by
  have h := trimClean_joinSep ds (pySplit ds p) (pySplit_ne_nil ds p) hp
  rwa [joinSep_pySplit] at h


theorem sentenceStep_inv_fresh (count : Counter) (maxSize : Nat)
    (σ : List Char) (hσ : σ = nn ∨ σ = ds)
    (chunks : List (List Char)) (T s : List Char)
    (hInv : RInv (chunks, []) T) (hs : trimClean s = true) :
    RInv (sentenceStep count maxSize (chunks, []) s) (T ++ σ ++ s) := by
  obtain ⟨seps, hOK, hLen, hInt, _⟩ := hInv
  have hcc : consCur (chunks, ([] : List Char)) = chunks := by simp [consCur]
  rw [hcc] at hLen hInt
  have hsne : s ≠ [] := trimClean_ne_nil s hs
  have hLen1 : seps.length + 1 = chunks.length := by simpa using hLen
  have hOK2 : ∀ x ∈ seps ++ [σ], x = nn ∨ x = ds := by
    intro x hx
    rcases List.mem_append.mp hx with h | h
    · exact hOK x h
    · simp at h
      subst h
      exact hσ
  by_cases hof : maxSize < count s
  · have hstep : sentenceStep count maxSize (chunks, []) s = (chunks ++ [s], []) := by
      simp [sentenceStep, hof]
    rw [hstep]
    refine ⟨seps ++ [σ], hOK2, ?_, ?_, by simp⟩
    · simp [consCur]
      omega
    · rw [show consCur (chunks ++ [s], ([] : List Char)) = chunks ++ [s] by
        simp [consCur]]
      rw [interleave_push chunks seps s σ hLen1, hInt]
  · have hstep : sentenceStep count maxSize (chunks, []) s = (chunks, s) := by
      simp [sentenceStep, hof]
    rw [hstep]
    refine ⟨seps ++ [σ], hOK2, ?_, ?_, fun _ => hs⟩
    · simp [consCur, hsne]
      omega
    · rw [show consCur (chunks, s) = chunks ++ [s] by simp [consCur, hsne]]
      rw [interleave_push chunks seps s σ hLen1, hInt]

theorem sentenceStep_inv (count : Counter) (maxSize : Nat)
    (st : List (List Char) × List Char) (T s : List Char)
    (hInv : RInv st T) (hs : trimClean s = true) :
    RInv (sentenceStep count maxSize st s) (T ++ ds ++ s) := by
  obtain ⟨chunks, cur⟩ := st
  by_cases hcur : cur = []
  · subst hcur
    exact sentenceStep_inv_fresh count maxSize ds (Or.inr rfl) chunks T s hInv hs
  · obtain ⟨seps, hOK, hLen, hInt, hTC⟩ := hInv
    have hcurTC : trimClean cur = true := hTC hcur
    have hcc : consCur (chunks, cur) = chunks ++ [cur] := by
      simp [consCur, hcur]
    rw [hcc] at hLen hInt
    have hLen1 : seps.length + 1 = (chunks ++ [cur]).length := by simpa using hLen
    have hLen2 : seps.length = chunks.length := by
      simp at hLen1
      omega
    have hsne : s ≠ [] := trimClean_ne_nil s hs
    have hOKds : ∀ x ∈ seps ++ [ds], x = nn ∨ x = ds := by
      intro x hx
      rcases List.mem_append.mp hx with h | h
      · exact hOK x h
      · simp at h
        subst h
        exact Or.inr rfl
    by_cases hof : maxSize < count (cur ++ (ds ++ s))
    · have hstep : sentenceStep count maxSize (chunks, cur) s
          = (chunks ++ [pyStrip cur], s) := by
        simp [sentenceStep, hcur, hof]
      rw [hstep, pyStrip_eq_self cur hcurTC]
      refine ⟨seps ++ [ds], hOKds, ?_, ?_, fun _ => hs⟩
      · simp [consCur, hsne]
        omega
      · rw [show consCur (chunks ++ [cur], s) = (chunks ++ [cur]) ++ [s] by
          simp [consCur, hsne]]
        rw [interleave_push (chunks ++ [cur]) seps s ds hLen1, hInt]
    · have hstep : sentenceStep count maxSize (chunks, cur) s
          = (chunks, cur ++ (ds ++ s)) := by
        simp [sentenceStep, hcur, hof]
      rw [hstep]
      have hne2 : cur ++ (ds ++ s) ≠ [] := by simp [hcur]
      have hTC2 : trimClean (cur ++ (ds ++ s)) = true := by
        have := trimClean_append cur ds s hcurTC hs
        rwa [List.append_assoc] at this
      refine ⟨seps, hOK, ?_, ?_, fun _ => hTC2⟩
      · simp [consCur, hne2]
        omega
      · rw [show consCur (chunks, cur ++ (ds ++ s)) = chunks ++ [cur ++ (ds ++ s)] by
          simp [consCur, hne2]]
        rw [interleave_extend chunks seps cur (ds ++ s) hLen2, hInt]
        simp [List.append_assoc]

theorem sentenceFold_inv (count : Counter) (maxSize : Nat)
    (ss : List (List Char)) :
    ∀ st T, (∀ s ∈ ss, trimClean s = true) → RInv st T →
      RInv (ss.foldl (sentenceStep count maxSize) st)
        (T ++ prependJoin ds ss) := by
  induction ss with
  | nil =>
    intro st T _ hInv
    simpa [prependJoin] using hInv
  | cons s rest ih =>
    intro st T hss hInv
    rw [List.foldl_cons]
    have h1 := sentenceStep_inv count maxSize st T s hInv (hss s (by simp))
    have h2 := ih (sentenceStep count maxSize st s) (T ++ ds ++ s)
      (fun x hx => hss x (List.mem_cons_of_mem s hx)) h1
    have heq : T ++ prependJoin ds (s :: rest)
        = (T ++ ds ++ s) ++ prependJoin ds rest := by
      simp [prependJoin, List.append_assoc]
    rw [heq]
    exact h2

theorem sentenceStep_start (count : Counter) (maxSize : Nat) (s : List Char)
    (hs : trimClean s = true) :
    RInv (sentenceStep count maxSize ([], []) s) s := by
  have hsne : s ≠ [] := trimClean_ne_nil s hs
  by_cases hof : maxSize < count s
  · have hstep : sentenceStep count maxSize ([], []) s = ([s], []) := by
      simp [sentenceStep, hof]
    rw [hstep]
    exact ⟨[], by simp, by simp [consCur], by simp [consCur, interleave], by simp⟩
  · have hstep : sentenceStep count maxSize ([], []) s = ([], s) := by
      simp [sentenceStep, hof]
    rw [hstep]
    exact ⟨[], by simp, by simp [consCur, hsne],
      by simp [consCur, hsne, interleave], fun _ => hs⟩

theorem paragraphStep_inv (count : Counter) (maxSize : Nat)
    (st : List (List Char) × List Char) (T p : List Char)
    (hp : ∀ s ∈ pySplit ds p, trimClean s = true)
    (hInv : RInv st T) :
    RInv (paragraphStep count maxSize st p) (T ++ nn ++ p) := by
  obtain ⟨chunks, cur⟩ := st
  have hpTC : trimClean p = true := trimClean_of_sentences p hp
  have hpne : p ≠ [] := trimClean_ne_nil p hpTC
  by_cases hcur : cur = []
  · subst hcur
    by_cases hof : maxSize < count p
    · have hstep : paragraphStep count maxSize (chunks, []) p
          = (pySplit ds p).foldl (sentenceStep count maxSize) (chunks, []) := by
        simp [paragraphStep, hof]
      rw [hstep]
      obtain ⟨s0, rest, hsplit⟩ : ∃ s0 rest, pySplit ds p = s0 :: rest := by
        cases hsp : pySplit ds p with
        | nil => exact absurd hsp (pySplit_ne_nil ds p)
        | cons a b => exact ⟨a, b, rfl⟩
      rw [hsplit, List.foldl_cons]
      have hs0 : trimClean s0 = true := hp s0 (by rw [hsplit]; simp)
      have h0 := sentenceStep_inv_fresh count maxSize nn (Or.inl rfl)
        chunks T s0 hInv hs0
      have h1 := sentenceFold_inv count maxSize rest
        (sentenceStep count maxSize (chunks, []) s0) (T ++ nn ++ s0)
        (fun x hx => hp x (by rw [hsplit]; exact List.mem_cons_of_mem s0 hx)) h0
      have hpeq : s0 ++ prependJoin ds rest = p := by
        have h2 := joinSep_pySplit ds p
        rw [hsplit, joinSep_eq_head_prependJoin] at h2
        exact h2
      have heq : T ++ nn ++ p = (T ++ nn ++ s0) ++ prependJoin ds rest := by
        rw [← hpeq]
        simp [List.append_assoc]
      rw [heq]
      exact h1
    · have hstep : paragraphStep count maxSize (chunks, []) p = (chunks, p) := by
        simp [paragraphStep, hof]
      rw [hstep]
      obtain ⟨seps, hOK, hLen, hInt, _⟩ := hInv
      have hcc : consCur (chunks, ([] : List Char)) = chunks := by simp [consCur]
      rw [hcc] at hLen hInt
      have hLen1 : seps.length + 1 = chunks.length := by simpa using hLen
      refine ⟨seps ++ [nn], ?_, ?_, ?_, fun _ => hpTC⟩
      · intro x hx
        rcases List.mem_append.mp hx with h | h
        · exact hOK x h
        · simp at h
          subst h
          exact Or.inl rfl
      · simp [consCur, hpne]
        omega
      · rw [show consCur (chunks, p) = chunks ++ [p] by simp [consCur, hpne]]
        rw [interleave_push chunks seps p nn hLen1, hInt]
  · obtain ⟨seps, hOK, hLen, hInt, hTC⟩ := hInv
    have hcurTC : trimClean cur = true := hTC hcur
    have hcc : consCur (chunks, cur) = chunks ++ [cur] := by
      simp [consCur, hcur]
    rw [hcc] at hLen hInt
    have hLen1 : seps.length + 1 = (chunks ++ [cur]).length := by simpa using hLen
    have hLen2 : seps.length = chunks.length := by
      simp at hLen1
      omega
    have hOKnn : ∀ x ∈ seps ++ [nn], x = nn ∨ x = ds := by
      intro x hx
      rcases List.mem_append.mp hx with h | h
      · exact hOK x h
      · simp at h
        subst h
        exact Or.inl rfl
    by_cases hof : maxSize < count (cur ++ (nn ++ p))
    · have hstep : paragraphStep count maxSize (chunks, cur) p
          = (chunks ++ [pyStrip cur], p) := by
        simp [paragraphStep, hcur, hof]
      rw [hstep, pyStrip_eq_self cur hcurTC]
      refine ⟨seps ++ [nn], hOKnn, ?_, ?_, fun _ => hpTC⟩
      · simp [consCur, hpne]
        omega
      · rw [show consCur (chunks ++ [cur], p) = (chunks ++ [cur]) ++ [p] by
          simp [consCur, hpne]]
        rw [interleave_push (chunks ++ [cur]) seps p nn hLen1, hInt]
    · have hstep : paragraphStep count maxSize (chunks, cur) p
          = (chunks, cur ++ (nn ++ p)) := by
        simp [paragraphStep, hcur, hof]
      rw [hstep]
      have hne2 : cur ++ (nn ++ p) ≠ [] := by simp [hcur]
      have hTC2 : trimClean (cur ++ (nn ++ p)) = true := by
        have := trimClean_append cur nn p hcurTC hpTC
        rwa [List.append_assoc] at this
      refine ⟨seps, hOK, ?_, ?_, fun _ => hTC2⟩
      · simp [consCur, hne2]
        omega
      · rw [show consCur (chunks, cur ++ (nn ++ p)) = chunks ++ [cur ++ (nn ++ p)] by
          simp [consCur, hne2]]
        rw [interleave_extend chunks seps cur (nn ++ p) hLen2, hInt]
        simp [List.append_assoc]

theorem paragraphStep_start (count : Counter) (maxSize : Nat) (p : List Char)
    (hp : ∀ s ∈ pySplit ds p, trimClean s = true) :
    RInv (paragraphStep count maxSize ([], []) p) p := by
  have hpTC : trimClean p = true := trimClean_of_sentences p hp
  have hpne : p ≠ [] := trimClean_ne_nil p hpTC
  by_cases hof : maxSize < count p
  · have hstep : paragraphStep count maxSize ([], []) p
        = (pySplit ds p).foldl (sentenceStep count maxSize) ([], []) := by
      simp [paragraphStep, hof]
    rw [hstep]
    obtain ⟨s0, rest, hsplit⟩ : ∃ s0 rest, pySplit ds p = s0 :: rest := by
      cases hsp : pySplit ds p with
      | nil => exact absurd hsp (pySplit_ne_nil ds p)
      | cons a b => exact ⟨a, b, rfl⟩
    rw [hsplit, List.foldl_cons]
    have hs0 : trimClean s0 = true := hp s0 (by rw [hsplit]; simp)
    have h0 := sentenceStep_start count maxSize s0 hs0
    have h1 := sentenceFold_inv count maxSize rest
      (sentenceStep count maxSize ([], []) s0) s0
      (fun x hx => hp x (by rw [hsplit]; exact List.mem_cons_of_mem s0 hx)) h0
    have hpeq : s0 ++ prependJoin ds rest = p := by
      have h2 := joinSep_pySplit ds p
      rw [hsplit, joinSep_eq_head_prependJoin] at h2
      exact h2
    rw [← hpeq]
    exact h1
  · have hstep : paragraphStep count maxSize ([], []) p = ([], p) := by
      simp [paragraphStep, hof]
    rw [hstep]
    exact ⟨[], by simp, by simp [consCur, hpne],
      by simp [consCur, hpne, interleave], fun _ => hpTC⟩

theorem paragraphFold_inv (count : Counter) (maxSize : Nat)
    (ps : List (List Char)) :
    ∀ st T, (∀ p ∈ ps, ∀ s ∈ pySplit ds p, trimClean s = true) → RInv st T →
      RInv (ps.foldl (paragraphStep count maxSize) st)
        (T ++ prependJoin nn ps) := by
  induction ps with
  | nil =>
    intro st T _ hInv
    simpa [prependJoin] using hInv
  | cons p rest ih =>
    intro st T hps hInv
    rw [List.foldl_cons]
    have h1 := paragraphStep_inv count maxSize st T p (hps p (by simp)) hInv
    have h2 := ih (paragraphStep count maxSize st p) (T ++ nn ++ p)
      (fun x hx => hps x (List.mem_cons_of_mem p hx)) h1
    have heq : T ++ prependJoin nn (p :: rest)
        = (T ++ nn ++ p) ++ prependJoin nn rest := by
      simp [prependJoin, List.append_assoc]
    rw [heq]
    exact h2

/-- C1 (counterexample): on the text `"aaa \n\nbb"` (8 characters, over a
limit of 4 with the character-count estimator) `chunk_text` returns the
chunks `["aaa", "bb"]` — the trailing space of the first paragraph is
stripped — so reinserting the recorded paragraph separator (a blank line),
or even the sentence separator `". "`, does not reproduce the original
text: the round-trip property fails. -/
theorem c1_counterexample :
    chunk_text List.length ("aaa \n\nbb".toList) 4
      = ["aaa".toList, "bb".toList]
    ∧ "aaa".toList ++ nn ++ "bb".toList ≠ "aaa \n\nbb".toList
    ∧ "aaa".toList ++ ds ++ "bb".toList ≠ "aaa \n\nbb".toList := by
  refine ⟨by decide, by decide, by decide⟩

/-- C1 (amended): for every token counter, every limit, and every text over
the limit in which every sentence of every paragraph is nonempty with no
leading or trailing whitespace, there is an assignment of boundary
separators — a blank line or `". "` for each boundary — such that
concatenating the chunks returned by `chunk_text` with those separators
reinserted between consecutive chunks reproduces the original input text
exactly. -/
theorem c1_amended (count : Counter) (text : List Char) (maxSize : Nat)
    (hover : maxSize < count text) (hgood : goodText text = true) :
    ∃ seps : List (List Char),
      (∀ x ∈ seps, x = nn ∨ x = ds)
      ∧ interleave (chunk_text count text maxSize) seps = text := by
  have hgood2 : ∀ p ∈ pySplit nn text, ∀ s ∈ pySplit ds p, trimClean s = true := by
    intro p hpmem s hsmem
    have h1 := (List.all_eq_true.mp hgood) p hpmem
    exact (List.all_eq_true.mp h1) s hsmem
  obtain ⟨p0, rest, hsplit⟩ : ∃ p0 rest, pySplit nn text = p0 :: rest := by
    cases hsp : pySplit nn text with
    | nil => exact absurd hsp (pySplit_ne_nil nn text)
    | cons a b => exact ⟨a, b, rfl⟩
  have h0 := paragraphStep_start count maxSize p0
    (hgood2 p0 (by rw [hsplit]; simp))
  have h1 := paragraphFold_inv count maxSize rest
    (paragraphStep count maxSize ([], []) p0) p0
    (fun q hq => hgood2 q (by rw [hsplit]; exact List.mem_cons_of_mem p0 hq)) h0
  have htext : p0 ++ prependJoin nn rest = text := by
    have h2 := joinSep_pySplit nn text
    rw [hsplit, joinSep_eq_head_prependJoin] at h2
    exact h2
  have h2 : RInv ((pySplit nn text).foldl (paragraphStep count maxSize) ([], []))
      text := by
    rw [hsplit, List.foldl_cons, ← htext]
    exact h1
  obtain ⟨seps, hOK, hLen, hInt, hTC⟩ := h2
  refine ⟨seps, hOK, ?_⟩
  have hntle : ¬ count text ≤ maxSize := Nat.not_le.mpr hover
  by_cases hcur : ((pySplit nn text).foldl (paragraphStep count maxSize) ([], [])).2 = []
  · have hct : chunk_text count text maxSize
        = ((pySplit nn text).foldl (paragraphStep count maxSize) ([], [])).1 := by
      simp [chunk_text, hntle, hcur]
    rw [hct]
    rw [show consCur ((pySplit nn text).foldl (paragraphStep count maxSize) ([], []))
        = ((pySplit nn text).foldl (paragraphStep count maxSize) ([], [])).1 by
      simp [consCur, hcur]] at hInt
    exact hInt
  · have hct : chunk_text count text maxSize
        = ((pySplit nn text).foldl (paragraphStep count maxSize) ([], [])).1
          ++ [pyStrip ((pySplit nn text).foldl (paragraphStep count maxSize) ([], [])).2] := by
      simp [chunk_text, hntle, hcur]
    rw [hct, pyStrip_eq_self _ (hTC hcur)]
    rw [show consCur ((pySplit nn text).foldl (paragraphStep count maxSize) ([], []))
        = ((pySplit nn text).foldl (paragraphStep count maxSize) ([], [])).1
          ++ [((pySplit nn text).foldl (paragraphStep count maxSize) ([], [])).2] by
      simp [consCur, hcur]] at hInt
    exact hInt

/-- Witness for C1 (amended): the clean three-paragraph text
`"aaa\n\nbbb\n\nccc"` over a limit of 7 with the character-count
estimator. -/
theorem c1_witness :
    7 < List.length ("aaa\n\nbbb\n\nccc".toList)
    ∧ goodText ("aaa\n\nbbb\n\nccc".toList) = true
    ∧ ∃ seps : List (List Char),
        (∀ x ∈ seps, x = nn ∨ x = ds)
        ∧ interleave (chunk_text List.length ("aaa\n\nbbb\n\nccc".toList) 7) seps
            = "aaa\n\nbbb\n\nccc".toList :=
  ⟨by decide, by decide,
    c1_amended List.length ("aaa\n\nbbb\n\nccc".toList) 7 (by decide) (by decide)⟩

/-- Witness for C7 at a 400-second video with 180-second chunks
(the source's default `chunk_duration`). -/
theorem c7_witness :
    (0 : ℚ) < 400 ∧ (0 : ℚ) < 180
    ∧ (num_chunks 400 180 = ⌈(400 : ℚ) / 180⌉
      ∧ ((chunk_spans 400 180).length : ℤ) = ⌈(400 : ℚ) / 180⌉
      ∧ (∀ i : Nat, (i : ℤ) + 1 < num_chunks 400 180 →
          (chunk_bounds 400 180 i).2 = (chunk_bounds 400 180 (i + 1)).1
          ∧ (chunk_bounds 400 180 i).2 - (chunk_bounds 400 180 i).1 = 180)
      ∧ (∀ i : Nat, (i : ℤ) < num_chunks 400 180 →
          0 < (chunk_bounds 400 180 i).2 - (chunk_bounds 400 180 i).1
          ∧ (chunk_bounds 400 180 i).2 - (chunk_bounds 400 180 i).1 ≤ 180)
      ∧ (∑ i ∈ Finset.range (num_chunks 400 180).toNat,
          ((chunk_bounds 400 180 i).2 - (chunk_bounds 400 180 i).1)) = 400) :=
  ⟨by norm_num, by norm_num, c7_media_split 400 180 (by norm_num) (by norm_num)⟩
